import Mathlib

/-!
Verification of the go-deepmod repository (a tool that syncs `replace`
directives from direct dependencies into a project's go.mod).

The Go sources are shallowly embedded:

* `internal/pathutil/pathutil.go` — `IsLocalPath`.  Go works on the
  UTF-8 bytes of the string: the prefix and whole-string comparisons
  against ASCII-only literals coincide with the character-level tests
  (UTF-8 is self-synchronizing, so an ASCII byte prefix decodes to the
  same character prefix), but the drive test `path[1] == ':'` reads the
  byte at offset 1, which can sit inside a multi-byte character — it is
  modelled on the UTF-8 byte list (`strBytes`).
* `golang.org/x/mod/semver` — `semverCompare` embeds `semver.Compare`
  (with its helpers `parse`, `parseInt`, `parsePrerelease`, `parseBuild`,
  `compareInt`, `comparePrerelease`), which `Deduplicate` calls.
* `internal/gomod/gomod.go` — `Replace`, `Deduplicate`.  The Go map
  `byKey` is modelled as an association list in first-insertion order;
  since Go's `for range` over a map enumerates in an unspecified order,
  the set of possible results of the Go function is captured by the
  relation `DeduplicateOutputs` (every permutation of the canonical
  value list), while `Deduplicate` is the canonical representative.
* `internal/sync/sync.go` — `findStaleReplaces`, `addSourceComment`
  (string rewriting modelled exactly, over the file contents), and the
  orchestrator `Run` as `runModel`, with the external commands
  (`go list`, `go mod edit`, `go mod tidy`) and the modfile parser
  supplied as abstract inputs in `Env`.
-/

namespace DeepMod

/-- One `replace` directive (struct `Replace`, internal/gomod/gomod.go). -/
structure Replace where
  Old : String
  New : String
  OldVer : String
  NewVer : String
  Source : String
deriving DecidableEq, Repr

/-! ## internal/pathutil: the local-path classifier -/

/-- The UTF-8 encoding of one character, as natural-number bytes. -/
def utf8Bytes (c : Char) : List Nat :=
  let n := c.toNat
  if n < 0x80 then [n]
  else if n < 0x800 then
    [0xC0 + n / 0x40, 0x80 + n % 0x40]
  else if n < 0x10000 then
    [0xE0 + n / 0x1000, 0x80 + n / 0x40 % 0x40, 0x80 + n % 0x40]
  else
    [0xF0 + n / 0x40000, 0x80 + n / 0x1000 % 0x40, 0x80 + n / 0x40 % 0x40, 0x80 + n % 0x40]

/-- The UTF-8 byte sequence of a string — what Go indexes with `s[i]`. -/
def strBytes : List Char → List Nat
  | [] => []
  | c :: cs => utf8Bytes c ++ strBytes cs

/-- `IsLocalPath` from internal/pathutil/pathutil.go.  The emptiness,
prefix and whole-string tests compare against ASCII-only literals, where
the byte-level comparison Go performs coincides with the character-level
one (an ASCII byte at a character boundary is that character; a
multi-byte character never produces an ASCII byte).  `filepath.IsAbs`
on the host (Unix) platform is `strings.HasPrefix(path, "/")`.  The
final test is Go's `len(path) >= 2 && path[1] == ':'`, an index into
the raw bytes: it is taken on the UTF-8 byte list, where 58 is `:`. -/
def IsLocalPath (path : String) : Bool :=
  if path.data = [] then false
  else if (['.', '/'].isPrefixOf path.data) ∨ (['.', '.', '/'].isPrefixOf path.data) then true
  else if path.data = ['.'] ∨ path.data = ['.', '.'] then true
  else if ['/'].isPrefixOf path.data then true
  else
    match strBytes path.data with
    | _ :: 58 :: _ => true
    | _ => false

/-- Method `Replace.IsLocal` (gomod.go line 23). -/
def Replace.IsLocal (r : Replace) : Bool :=
  IsLocalPath r.New

/-! ## golang.org/x/mod/semver: `Compare` and its helpers

`Deduplicate` decides version conflicts with `semver.Compare`; the
library is embedded function-for-function on `List Char`. -/

/-- Go's digit test `'0' <= c && c <= '9'`. -/
def isDigitCh (c : Char) : Bool :=
  '0' ≤ c ∧ c ≤ '9'

/-- `isIdentChar` from semver.go. -/
def isIdentChar (c : Char) : Bool :=
  ('A' ≤ c ∧ c ≤ 'Z') ∨ ('a' ≤ c ∧ c ≤ 'z') ∨ ('0' ≤ c ∧ c ≤ '9') ∨ c = '-'

/-- `isNum` from semver.go: the string consists of digits only. -/
def isNum (v : List Char) : Bool :=
  v.all isDigitCh

/-- `isBadNum` from semver.go: all digits, more than one, leading zero. -/
def isBadNum (v : List Char) : Bool :=
  v.all isDigitCh ∧ 1 < v.length ∧ v.head? = some '0'

/-- Go's byte-lexicographic string comparison `x < y` / `x > y`,
as a three-way comparison (UTF-8 byte order coincides with code-point
order, so comparing characters is faithful). -/
def cmpChars : List Char → List Char → Int
  | [], [] => 0
  | [], _ :: _ => -1
  | _ :: _, [] => 1
  | a :: as, b :: bs => if a < b then -1 else if b < a then 1 else cmpChars as bs

/-- `compareInt` from semver.go: equal → 0, else by length, else bytewise. -/
def compareInt (x y : List Char) : Int :=
  if x = y then 0
  else if x.length < y.length then -1
  else if y.length < x.length then 1
  else if cmpChars x y < 0 then -1 else 1

/-- The dot-separated decomposition that the `comparePrerelease` loop of
semver.go performs via `nextIdent` (each round skips one separator byte
and takes the identifier up to the next dot). -/
def splitDots : List Char → List (List Char)
  | [] => [[]]
  | c :: cs =>
    if c = '.' then [] :: splitDots cs
    else
      match splitDots cs with
      | s :: ss => (c :: s) :: ss
      | [] => [[c]]

/-- The identifier comparison inside the `comparePrerelease` loop of
semver.go: numeric identifiers sort below alphanumeric ones, numeric
ones by length then bytewise, alphanumeric ones bytewise. -/
def cmpIdent (dx dy : List Char) : Int :=
  if dx = dy then 0
  else if isNum dx ≠ isNum dy then (if isNum dx then -1 else 1)
  else if isNum dx then
    if dx.length < dy.length then -1
    else if dy.length < dx.length then 1
    else if cmpChars dx dy < 0 then -1 else 1
  else if cmpChars dx dy < 0 then -1 else 1

/-- The loop of `comparePrerelease` in semver.go over the identifier
lists: an exhausted left side compares low (the function returns -1
when its mutated `x` is empty, +1 otherwise). -/
def cmpIdentList : List (List Char) → List (List Char) → Int
  | [], [] => -1
  | [], _ :: _ => -1
  | _ :: _, [] => 1
  | a :: as, b :: bs =>
    let c := cmpIdent a b
    if c ≠ 0 then c else cmpIdentList as bs

/-- `comparePrerelease` from semver.go: equal strings are equal, the
empty prerelease sorts above any non-empty one, otherwise the
identifier lists (first byte of each side skipped) are compared. -/
def cmpPrerelease (x y : List Char) : Int :=
  if x = y then 0
  else if x = [] then 1
  else if y = [] then -1
  else cmpIdentList (splitDots (x.drop 1)) (splitDots (y.drop 1))

/-- The record `parsed` of semver.go (the `short` field, unused by
`Compare`, is omitted). -/
structure ParsedSemver where
  major : List Char
  minor : List Char
  patch : List Char
  prerelease : List Char
  build : List Char
deriving DecidableEq, Repr

/-- `parseInt` from semver.go: a non-empty digit prefix with no leading
zero; returns the prefix and the rest. -/
def parseIntSem (v : List Char) : Option (List Char × List Char) :=
  match v with
  | [] => none
  | c :: _ =>
    if isDigitCh c then
      let t := v.takeWhile isDigitCh
      if c = '0' ∧ t.length ≠ 1 then none
      else some (t, v.dropWhile isDigitCh)
    else none

/-- `parsePrerelease` from semver.go: requires a leading `-`; scans up
to the first `+`; every byte must be an identifier character or a dot,
and every dot-separated segment must be non-empty and not a bad number. -/
def parsePrereleaseSem (v : List Char) : Option (List Char × List Char) :=
  match v with
  | '-' :: tl =>
    let body := tl.takeWhile (fun c => c ≠ '+')
    let rest := tl.dropWhile (fun c => c ≠ '+')
    if body.all (fun c => isIdentChar c ∨ c = '.') ∧
        (splitDots body).all (fun s => ¬s.isEmpty ∧ ¬isBadNum s) then
      some ('-' :: body, rest)
    else none
  | _ => none

/-- `parseBuild` from semver.go: requires a leading `+`; scans to the
end; every byte an identifier character or dot, no empty segment. -/
def parseBuildSem (v : List Char) : Option (List Char × List Char) :=
  match v with
  | '+' :: tl =>
    if tl.all (fun c => isIdentChar c ∨ c = '.') ∧
        (splitDots tl).all (fun s => ¬s.isEmpty) then
      some ('+' :: tl, [])
    else none
  | _ => none

/-- `parse` from semver.go: leading `v`, then major[.minor[.patch]]
with optional prerelease and build, and nothing may remain. -/
def parseSemver (v : List Char) : Option ParsedSemver :=
  match v with
  | 'v' :: rest =>
    match parseIntSem rest with
    | none => none
    | some (maj, v1) =>
      match v1 with
      | [] => some ⟨maj, ['0'], ['0'], [], []⟩
      | '.' :: v2 =>
        match parseIntSem v2 with
        | none => none
        | some (mnr, v3) =>
          match v3 with
          | [] => some ⟨maj, mnr, ['0'], [], []⟩
          | '.' :: v4 =>
            match parseIntSem v4 with
            | none => none
            | some (pat, v5) =>
              match (if v5.head? = some '-' then parsePrereleaseSem v5 else some ([], v5)) with
              | none => none
              | some (pre, v6) =>
                match (if v6.head? = some '+' then parseBuildSem v6 else some ([], v6)) with
                | none => none
                | some (bld, v7) =>
                  if v7 = [] then some ⟨maj, mnr, pat, pre, bld⟩ else none
          | _ => none
      | _ => none
  | _ => none

/-- The comparison chain of `semver.Compare` once both versions have
parsed: major, minor, patch, then prerelease. -/
def parsedCompare (pv pw : ParsedSemver) : Int :=
  if compareInt pv.major pw.major ≠ 0 then compareInt pv.major pw.major
  else if compareInt pv.minor pw.minor ≠ 0 then compareInt pv.minor pw.minor
  else if compareInt pv.patch pw.patch ≠ 0 then compareInt pv.patch pw.patch
  else cmpPrerelease pv.prerelease pw.prerelease

/-- `semver.Compare`: an invalid version sorts below a valid one and
equal to another invalid one; valid versions compare by major, minor,
patch, then prerelease. -/
def semverCompare (v w : String) : Int :=
  match parseSemver v.data, parseSemver w.data with
  | none, none => 0
  | none, some _ => -1
  | some _, none => 1
  | some pv, some pw => parsedCompare pv pw

/-! ## internal/gomod: `ParseReplaces` filter and `Deduplicate`

File reading and `modfile.Parse` are external; given the parsed list of
raw replace directives, `ParseReplaces` keeps the non-local ones and
`ParseReplacesWithSource` keeps those whose trailing comment yielded a
non-empty `Source`. -/

/-- The filter that `ParseReplaces` (gomod.go lines 39–51) applies to
the directives of a parsed go.mod: keep a record iff it is not local. -/
def parseReplacesFilter (raw : List Replace) : List Replace :=
  raw.filter (fun r => ¬r.IsLocal)

/-- The filter that `ParseReplacesWithSource` (gomod.go lines 66–87)
applies after recovering `Source` from the `// from:` suffix comment:
keep a record iff the recovered source is non-empty. -/
def withSourceFilter (raw : List Replace) : List Replace :=
  raw.filter (fun r => r.Source ≠ "")

/-- The map key of `Deduplicate` (gomod.go lines 104–107):
`Old`, or `Old ++ "@" ++ OldVer` when a version constraint is present. -/
def dedupKey (r : Replace) : String :=
  if r.OldVer ≠ "" then r.Old ++ "@" ++ r.OldVer else r.Old

/-- Lookup in the association-list model of the Go map `byKey`. -/
def lookupKey : List (String × Replace) → String → Option Replace
  | [], _ => none
  | (k', r') :: m, k => if k' = k then some r' else lookupKey m k

/-- Assignment `byKey[key] = r`: replace the entry in place, or append
a fresh one. -/
def setKey : List (String × Replace) → String → Replace → List (String × Replace)
  | [], k, r => [(k, r)]
  | (k', r') :: m, k, r => if k' = k then (k, r) :: m else (k', r') :: setKey m k r

/-- One iteration of the accumulation loop of `Deduplicate`
(gomod.go lines 103–111): insert when absent, overwrite when the new
record's version compares strictly lower. -/
def dedupStep (m : List (String × Replace)) (r : Replace) : List (String × Replace) :=
  let k := dedupKey r
  match lookupKey m k with
  | none => setKey m k r
  | some existing =>
    if semverCompare r.NewVer existing.NewVer < 0 then setKey m k r else m

/-- The contents of the map `byKey` after the loop of `Deduplicate`,
in first-insertion order. -/
def dedupMap (rs : List Replace) : List (String × Replace) :=
  rs.foldl dedupStep []

/-- The canonical result list of `Deduplicate` (gomod.go lines
113–117): the map's values, enumerated in first-insertion order. -/
def Deduplicate (rs : List Replace) : List Replace :=
  (dedupMap rs).map Prod.snd

/-- The possible results of the Go function `Deduplicate`: Go's
`for _, r := range byKey` enumerates the map in an unspecified order,
so every permutation of the value list is a possible return value. -/
def DeduplicateOutputs (input out : List Replace) : Prop :=
  out.Perm (Deduplicate input)

instance (input out : List Replace) : Decidable (DeduplicateOutputs input out) :=
  inferInstanceAs (Decidable (out.Perm (Deduplicate input)))

/-- The running minimum of the version-conflict resolution: fold the
overwrite test of `dedupStep` over the remaining candidates of one key
group. -/
def pickMin (w : Replace) (g : List Replace) : Replace :=
  g.foldl (fun w' r => if semverCompare r.NewVer w'.NewVer < 0 then r else w') w

/-- The winner of one key group (none if the group is empty). -/
def groupWinner : List Replace → Option Replace
  | [] => none
  | h :: t => some (pickMin h t)

/-! ## internal/sync: staleness, annotation, and the orchestrator -/

/-- `findStaleReplaces` (sync.go lines 182–203), given the records
recovered from the project's own go.mod (`existing`, the result of
`ParseReplacesWithSource`) and the reconciled list (`current`): keep
every existing record whose `Old` is not among the current `Old`s. -/
def findStaleReplaces (existing current : List Replace) : List Replace :=
  let currentKeys := current.map (fun r => r.Old)
  existing.filter (fun r => ¬currentKeys.contains r.Old)

/-- `strings.Contains s pat` on character lists. -/
def containsSubstr (pat : List Char) : List Char → Bool
  | [] => pat.isEmpty
  | s@(_ :: cs) => pat.isPrefixOf s || containsSubstr pat cs

/-- `strings.Replace s pat rep 1` on character lists: rewrite the
leftmost occurrence of `pat` (with `pat = []` the replacement is
inserted in front, as in Go). -/
def replaceFirst (pat rep : List Char) : List Char → List Char
  | [] => if pat.isEmpty then rep else []
  | s@(c :: cs) =>
    if pat.isPrefixOf s then rep ++ s.drop pat.length
    else c :: replaceFirst pat rep cs

/-- The directive pattern `"replace <old> => <new> <newver>"` that
`addSourceComment` searches for (sync.go line 213). -/
def sourcePattern (r : Replace) : List Char :=
  ("replace " ++ r.Old ++ " => " ++ r.New ++ " " ++ r.NewVer).data

/-- The annotation `" // from: <source>"` (sync.go line 214). -/
def sourceComment (r : Replace) : List Char :=
  (" // from: " ++ r.Source).data

/-- `addSourceComment` (sync.go lines 205–222) as a transformation of
the go.mod contents: if the directive pattern occurs and is not already
followed by the annotation anywhere, rewrite its first occurrence;
otherwise leave the contents untouched.  (The file read/write itself is
external; the function never fails on the pure contents.) -/
def addSourceComment (r : Replace) (content : List Char) : List Char :=
  let pattern := sourcePattern r
  let comment := sourceComment r
  if containsSubstr pattern content && !containsSubstr (pattern ++ comment) content then
    replaceFirst pattern (pattern ++ comment) content
  else content

/-- One row of `go list -m -json all` (struct `moduleInfo`, sync.go). -/
structure ModuleInfo where
  Path : String
  Version : String
  Dir : String
  Main : Bool
  Indirect : Bool
deriving DecidableEq, Repr

/-- The sync options (struct `Options`, sync.go; the output sink is a
side channel and is not part of the model). -/
structure Options where
  DryRun : Bool
  Verbose : Bool
  SkipTidy : Bool
deriving DecidableEq, Repr

/-- The environment of one run: the initial go.mod contents, and the
results of the external collaborators (the `go list` invocation, the
modfile parser on each dependency's go.mod and on the project's own
go.mod, and the `go mod edit` / `go mod tidy` commands, which rewrite
the contents or fail). -/
structure Env where
  /-- Initial contents of the project's go.mod. -/
  goMod0 : List Char
  /-- Decoded output of `go list -m -json all`; `none` = command failed. -/
  listAll : Option (List ModuleInfo)
  /-- Raw parsed replace directives of `<dir>/go.mod` for a dependency
  directory; `none` = read or parse failure for that dependency. -/
  readDep : String → Option (List Replace)
  /-- Raw parse (with recovered sources) of the project's own go.mod,
  as used by `findStaleReplaces`; `none` = read or parse failure. -/
  selfRaw : Option (List Replace)
  /-- `go mod edit -replace=old=new@ver` on the contents. -/
  editReplace : Replace → List Char → Option (List Char)
  /-- `go mod edit -dropreplace=...` on the contents. -/
  editDrop : Replace → List Char → Option (List Char)
  /-- `go mod tidy` on the contents. -/
  tidyOp : List Char → Option (List Char)

/-- Final go.mod contents plus whether `Run` returned without error. -/
structure RunResult where
  goMod : List Char
  ok : Bool
deriving DecidableEq

/-- The apply loop of `Run` (sync.go lines 118–127): `go mod edit
-replace` for each reconciled record (abort on failure), then the
provenance annotation (its failure is only a warning). -/
def applyPhase (env : Env) : List Replace → List Char → RunResult
  | [], c => ⟨c, true⟩
  | r :: rs, c =>
    match env.editReplace r c with
    | none => ⟨c, false⟩
    | some c' => applyPhase env rs (addSourceComment r c')

/-- The removal loop of `Run` (sync.go lines 130–139): `go mod edit
-dropreplace` for each stale record, abort on failure. -/
def removePhase (env : Env) : List Replace → List Char → RunResult
  | [], c => ⟨c, true⟩
  | r :: rs, c =>
    match env.editDrop r c with
    | none => ⟨c, false⟩
    | some c' => removePhase env rs c'

/-- The collection loop of `Run` (sync.go lines 66–85): for each direct
dependency with a local directory whose go.mod parses, take its
non-local replaces and stamp their `Source` with the dependency path. -/
def collectReplaces (env : Env) (deps : List ModuleInfo) : List Replace :=
  deps.foldl
    (fun acc dep =>
      if dep.Dir = "" then acc
      else
        match env.readDep dep.Dir with
        | none => acc
        | some raw =>
          acc ++ (parseReplacesFilter raw).map (fun r => { r with Source := dep.Path }))
    []

/-- The staleness step of `Run` (sync.go lines 91–94): a failed read of
the project's own manifest leaves the stale list empty (with only a
verbose warning); otherwise `findStaleReplaces` runs on the annotated
records. -/
def staleOf (env : Env) (replaces : List Replace) : List Replace :=
  match env.selfRaw with
  | none => []
  | some raw => findStaleReplaces (withSourceFilter raw) replaces

/-- The tail of `Run` (sync.go lines 96–148) once the reconciled and
stale lists are known: nothing-to-do and dry-run return with the
contents untouched; otherwise the apply loop, the removal loop, and
(unless skipped) `go mod tidy` run in order. -/
def runCore (env : Env) (opts : Options) (replaces stale : List Replace) : RunResult :=
  if replaces = [] ∧ stale = [] then ⟨env.goMod0, true⟩
  else if opts.DryRun then ⟨env.goMod0, true⟩
  else
    let ar := applyPhase env replaces env.goMod0
    if ¬ar.ok then ar
    else
      let rr := removePhase env stale ar.goMod
      if ¬rr.ok then rr
      else if opts.SkipTidy then rr
      else
        match env.tidyOp rr.goMod with
        | none => ⟨rr.goMod, false⟩
        | some c' => ⟨c', true⟩

/-- `Run` (sync.go lines 37–149): `go list` failure aborts; the direct
dependencies are the non-main non-indirect rows; their non-local
replaces are collected, stamped, and reconciled; staleness degrades to
empty on failure; then `runCore` finishes the run. -/
def runModel (env : Env) (opts : Options) : RunResult :=
  match env.listAll with
  | none => ⟨env.goMod0, false⟩
  | some mods =>
    let deps := mods.filter (fun m => ¬m.Main ∧ ¬m.Indirect)
    let replaces := Deduplicate (collectReplaces env deps)
    runCore env opts replaces (staleOf env replaces)

/-! ## Order-theoretic facts about the semver comparators -/

theorem cmpChars_eq_zero : ∀ {x y : List Char}, cmpChars x y = 0 ↔ x = y := by
  intro x
  induction x with
  | nil => intro y; cases y <;> simp [cmpChars]
  | cons a as ih =>
    intro y
    cases y with
    | nil => simp [cmpChars]
    | cons b bs =>
      simp only [cmpChars, List.cons_eq_cons]
      split_ifs with h1 h2
      · constructor
        · intro h; exact absurd h (by decide)
        · rintro ⟨rfl, -⟩; exact absurd h1 (lt_irrefl a)
      · constructor
        · intro h; exact absurd h (by decide)
        · rintro ⟨rfl, -⟩; exact absurd h2 (lt_irrefl a)
      · have hab : a = b := le_antisymm (not_lt.mp h2) (not_lt.mp h1)
        subst hab
        simpa using ih

theorem cmpChars_self (x : List Char) : cmpChars x x = 0 :=
  cmpChars_eq_zero.mpr rfl

theorem cmpChars_flip : ∀ (x y : List Char), cmpChars y x = -cmpChars x y := by
  intro x
  induction x with
  | nil => intro y; cases y <;> simp [cmpChars]
  | cons a as ih =>
    intro y
    cases y with
    | nil => simp [cmpChars]
    | cons b bs =>
      simp only [cmpChars]
      rcases lt_trichotomy a b with h | h | h
      · simp [h, not_lt.mpr (le_of_lt h), lt_asymm h]
      · subst h; simp [lt_irrefl, ih]
      · simp [h, not_lt.mpr (le_of_lt h), lt_asymm h]

theorem cmpChars_trans_neg :
    ∀ {x y z : List Char}, cmpChars x y < 0 → cmpChars y z < 0 → cmpChars x z < 0 := by
  intro x
  induction x with
  | nil =>
    intro y z h1 h2
    cases y with
    | nil => simp [cmpChars] at h1
    | cons b bs =>
      cases z with
      | nil => simp [cmpChars] at h2
      | cons c cs => simp [cmpChars]
  | cons a as ih =>
    intro y z h1 h2
    cases y with
    | nil => simp [cmpChars] at h1
    | cons b bs =>
      cases z with
      | nil => simp [cmpChars] at h2
      | cons c cs =>
        simp only [cmpChars] at h1 h2 ⊢
        split_ifs at h1 with hab hba
        · -- a < b
          split_ifs at h2 with hbc hcb
          · have : a < c := lt_trans hab hbc
            simp [this]
          · omega
          · have hbc : b = c := le_antisymm (not_lt.mp hcb) (not_lt.mp hbc)
            subst hbc
            simp [hab]
        · omega
        · have hab' : a = b := le_antisymm (not_lt.mp hba) (not_lt.mp hab)
          subst hab'
          split_ifs at h2 with hbc hcb
          · simp [hbc]
          · omega
          · have hbc : a = c := le_antisymm (not_lt.mp hcb) (not_lt.mp hbc)
            subst hbc
            simp [lt_irrefl, ih h1 h2]

theorem compareInt_self (x : List Char) : compareInt x x = 0 := by
  simp [compareInt]

theorem compareInt_eq_zero {x y : List Char} : compareInt x y = 0 ↔ x = y := by
  unfold compareInt
  split_ifs with h1 h2 h3 h4 <;> simp_all

theorem compareInt_flip (x y : List Char) : compareInt y x = -compareInt x y := by
  unfold compareInt
  by_cases hxy : x = y
  · subst hxy; simp
  · have hyx : y ≠ x := fun h => hxy h.symm
    rcases lt_trichotomy x.length y.length with h | h | h
    · simp [hxy, hyx, h, asymm h]
    · have hc : cmpChars y x = -cmpChars x y := cmpChars_flip x y
      have hne : cmpChars x y ≠ 0 := fun h0 => hxy (cmpChars_eq_zero.mp h0)
      simp only [hxy, hyx, h, lt_irrefl, if_false, if_neg, hc]
      rcases lt_trichotomy (cmpChars x y) 0 with hlt | heq | hgt
      · simp [hlt]; omega
      · exact absurd heq hne
      · have : ¬cmpChars x y < 0 := not_lt.mpr (le_of_lt hgt)
        simp [this]; omega
    · simp [hxy, hyx, h, asymm h]

theorem compareInt_trans_neg {x y z : List Char} :
    compareInt x y < 0 → compareInt y z < 0 → compareInt x z < 0 := by
  unfold compareInt
  intro h1 h2
  split_ifs at h1 with e1 l1 l1' c1 <;> try omega
  all_goals split_ifs at h2 with e2 l2 l2' c2 <;> try omega
  · -- x.length < y.length, y.length < z.length
    have hxz : x ≠ z := by
      intro h; subst h; omega
    have : x.length < z.length := by omega
    simp [hxz, this]
  · -- x.length < y.length, lengths y z equal, cmpChars y z < 0
    have hyz : y.length = z.length := by omega
    have hxz : x ≠ z := by
      intro h; subst h; omega
    have : x.length < z.length := by omega
    simp [hxz, this]
  · -- lengths x y equal with cmpChars x y < 0; y.length < z.length
    have hxz : x ≠ z := by
      intro h; subst h; omega
    have : x.length < z.length := by omega
    simp [hxz, this]
  · -- both bytewise
    have hc : cmpChars x z < 0 := cmpChars_trans_neg c1 c2
    have hxz : x ≠ z := by
      intro h; subst h; rw [cmpChars_self] at hc; omega
    have hl1 : ¬x.length < z.length := by omega
    have hl2 : ¬z.length < x.length := by omega
    simp [hxz, hl1, hl2, hc]

/-- A name for the shared alphanumeric branch of `cmpIdent`. -/
def cmpAlpha (x y : List Char) : Int :=
  if x = y then 0 else if cmpChars x y < 0 then -1 else 1

theorem cmpAlpha_flip (x y : List Char) : cmpAlpha y x = -cmpAlpha x y := by
  unfold cmpAlpha
  by_cases hxy : x = y
  · subst hxy; simp
  · have hyx : y ≠ x := fun h => hxy h.symm
    have hc : cmpChars y x = -cmpChars x y := cmpChars_flip x y
    have hne : cmpChars x y ≠ 0 := fun h0 => hxy (cmpChars_eq_zero.mp h0)
    simp only [hxy, hyx, if_false, hc]
    rcases lt_trichotomy (cmpChars x y) 0 with hlt | heq | hgt
    · simp [hlt]; omega
    · exact absurd heq hne
    · have h' : ¬cmpChars x y < 0 := not_lt.mpr (le_of_lt hgt)
      simp [h']; omega

theorem cmpAlpha_trans_neg {x y z : List Char} :
    cmpAlpha x y < 0 → cmpAlpha y z < 0 → cmpAlpha x z < 0 := by
  unfold cmpAlpha
  intro h1 h2
  split_ifs at h1 with e1 c1 <;> try omega
  split_ifs at h2 with e2 c2 <;> try omega
  have hc : cmpChars x z < 0 := cmpChars_trans_neg c1 c2
  have hxz : x ≠ z := by
    intro h; subst h; rw [cmpChars_self] at hc; omega
  simp [hxz, hc]

theorem cmpIdent_eq_zero {x y : List Char} : cmpIdent x y = 0 ↔ x = y := by
  unfold cmpIdent
  split_ifs <;> simp_all

theorem cmpIdent_self (x : List Char) : cmpIdent x x = 0 :=
  cmpIdent_eq_zero.mpr rfl

theorem cmpIdent_num_num {x y : List Char} (hx : isNum x = true) (hy : isNum y = true) :
    cmpIdent x y = compareInt x y := by
  unfold cmpIdent compareInt
  by_cases hxy : x = y
  · simp [hxy]
  · simp [hxy, hx, hy]

theorem cmpIdent_alpha_alpha {x y : List Char} (hx : isNum x = false) (hy : isNum y = false) :
    cmpIdent x y = cmpAlpha x y := by
  unfold cmpIdent cmpAlpha
  by_cases hxy : x = y
  · simp [hxy]
  · simp [hxy, hx, hy]

theorem cmpIdent_num_alpha {x y : List Char} (hx : isNum x = true) (hy : isNum y = false) :
    cmpIdent x y = -1 := by
  have hxy : x ≠ y := by
    intro h; subst h; rw [hx] at hy; exact absurd hy (by simp)
  unfold cmpIdent
  simp [hxy, hx, hy]

theorem cmpIdent_alpha_num {x y : List Char} (hx : isNum x = false) (hy : isNum y = true) :
    cmpIdent x y = 1 := by
  have hxy : x ≠ y := by
    intro h; subst h; rw [hx] at hy; exact absurd hy (by simp)
  unfold cmpIdent
  simp [hxy, hx, hy]

theorem cmpIdent_flip (x y : List Char) : cmpIdent y x = -cmpIdent x y := by
  cases hx : isNum x <;> cases hy : isNum y
  · rw [cmpIdent_alpha_alpha hy hx, cmpIdent_alpha_alpha hx hy, cmpAlpha_flip]
  · rw [cmpIdent_num_alpha hy hx, cmpIdent_alpha_num hx hy]
    try decide
  · rw [cmpIdent_alpha_num hy hx, cmpIdent_num_alpha hx hy]
    try decide
  · rw [cmpIdent_num_num hy hx, cmpIdent_num_num hx hy, compareInt_flip]

theorem cmpIdent_trans_neg {x y z : List Char} :
    cmpIdent x y < 0 → cmpIdent y z < 0 → cmpIdent x z < 0 := by
  intro h1 h2
  cases hx : isNum x <;> cases hy : isNum y <;> cases hz : isNum z
  · rw [cmpIdent_alpha_alpha hx hy] at h1
    rw [cmpIdent_alpha_alpha hy hz] at h2
    rw [cmpIdent_alpha_alpha hx hz]
    exact cmpAlpha_trans_neg h1 h2
  · rw [cmpIdent_alpha_num hy hz] at h2; omega
  · rw [cmpIdent_alpha_num hx hy] at h1; omega
  · rw [cmpIdent_alpha_num hx hy] at h1; omega
  · rw [cmpIdent_num_alpha hx hz]; omega
  · rw [cmpIdent_alpha_num hy hz] at h2; omega
  · rw [cmpIdent_num_alpha hx hz]; omega
  · rw [cmpIdent_num_num hx hy] at h1
    rw [cmpIdent_num_num hy hz] at h2
    rw [cmpIdent_num_num hx hz]
    exact compareInt_trans_neg h1 h2

theorem cmpIdentList_ne_zero : ∀ (as bs : List (List Char)), cmpIdentList as bs ≠ 0 := by
  intro as
  induction as with
  | nil => intro bs; cases bs <;> simp [cmpIdentList]
  | cons a as ih =>
    intro bs
    cases bs with
    | nil => simp [cmpIdentList]
    | cons b bs =>
      simp only [cmpIdentList]
      split_ifs with h
      · exact h
      · exact ih bs

theorem cmpIdentList_self : ∀ (as : List (List Char)), cmpIdentList as as = -1 := by
  intro as
  induction as with
  | nil => simp [cmpIdentList]
  | cons a as ih => simp [cmpIdentList, cmpIdent_self, ih]

theorem cmpIdentList_flip_ne :
    ∀ {as bs : List (List Char)}, as ≠ bs → cmpIdentList bs as = -cmpIdentList as bs := by
  intro as
  induction as with
  | nil =>
    intro bs hne
    cases bs with
    | nil => exact absurd rfl hne
    | cons b bs => simp [cmpIdentList]
  | cons a as ih =>
    intro bs hne
    cases bs with
    | nil => simp [cmpIdentList]
    | cons b bs =>
      by_cases hab : a = b
      · subst hab
        have habs : as ≠ bs := by
          intro h; exact hne (by rw [h])
        simp only [cmpIdentList, cmpIdent_self]
        simpa using ih habs
      · have h0 : cmpIdent a b ≠ 0 := fun h => hab (cmpIdent_eq_zero.mp h)
        have h0' : cmpIdent b a ≠ 0 := by
          rw [cmpIdent_flip]; omega
        simp only [cmpIdentList, h0, h0', if_true, cmpIdent_flip a b]
        simp [h0]

theorem cmpIdentList_trans_neg :
    ∀ {as bs cs : List (List Char)},
      cmpIdentList as bs < 0 → cmpIdentList bs cs < 0 → cmpIdentList as cs < 0 := by
  intro as
  induction as with
  | nil =>
    intro bs cs _ _
    cases cs <;> simp [cmpIdentList]
  | cons a as ih =>
    intro bs cs h1 h2
    cases bs with
    | nil => simp [cmpIdentList] at h1
    | cons b bs =>
      cases cs with
      | nil => simp [cmpIdentList] at h2
      | cons c cs =>
        simp only [cmpIdentList] at h1 h2 ⊢
        by_cases e1 : cmpIdent a b = 0
        · have hab : a = b := cmpIdent_eq_zero.mp e1
          subst hab
          simp only [e1, ne_eq, not_true_eq_false, if_false] at h1
          by_cases e2 : cmpIdent a c = 0
          · have hac : a = c := cmpIdent_eq_zero.mp e2
            subst hac
            simp only [e2, ne_eq, not_true_eq_false, if_false] at h2 ⊢
            exact ih h1 h2
          · simp only [ne_eq, e2, not_false_eq_true, if_true] at h2 ⊢
            exact h2
        · simp only [ne_eq, e1, not_false_eq_true, if_true] at h1
          by_cases e2 : cmpIdent b c = 0
          · have hbc : b = c := cmpIdent_eq_zero.mp e2
            subst hbc
            simp [e1, h1]
          · simp only [ne_eq, e2, not_false_eq_true, if_true] at h2
            have hac : cmpIdent a c < 0 := cmpIdent_trans_neg h1 h2
            have hac0 : cmpIdent a c ≠ 0 := by omega
            simp [hac0, hac]

theorem cmpPrerelease_self (x : List Char) : cmpPrerelease x x = 0 := by
  simp [cmpPrerelease]

theorem cmpPrerelease_flip_le {x y : List Char} (h : 0 ≤ cmpPrerelease x y) :
    cmpPrerelease y x ≤ 0 := by
  unfold cmpPrerelease at h ⊢
  by_cases hxy : x = y
  · subst hxy; simp
  · have hyx : y ≠ x := fun h' => hxy h'.symm
    by_cases hx : x = []
    · have hy : y ≠ [] := by
        intro h'; exact hxy (hx.trans h'.symm)
      simp [hxy, hyx, hx, hy]
    · by_cases hy : y = []
      · simp [hxy, hx, hy] at h
      · simp only [hxy, hyx, hx, hy, if_false] at h ⊢
        by_cases hs : splitDots (x.drop 1) = splitDots (y.drop 1)
        · rw [← hs, cmpIdentList_self]; omega
        · rw [cmpIdentList_flip_ne hs]; omega

theorem cmpPrerelease_trans_le {x y z : List Char}
    (h1 : cmpPrerelease x y ≤ 0) (h2 : cmpPrerelease y z ≤ 0) :
    cmpPrerelease x z ≤ 0 := by
  by_cases hxy : x = y
  · subst hxy; exact h2
  · by_cases hyz : y = z
    · subst hyz; exact h1
    · by_cases hxz : x = z
      · rw [hxz, cmpPrerelease_self]
      · unfold cmpPrerelease at h1 h2 ⊢
        by_cases hx : x = []
        · -- x empty sorts above everything except itself: h1 forces y = x
          by_cases hy : y = []
          · exact absurd (hx.trans hy.symm) hxy
          · simp [hxy, hx, hy] at h1
        · by_cases hz : z = []
          · simp [hxz, hx, hz]
          · by_cases hy : y = []
            · simp [hyz, hy, hz] at h2
            · simp only [hxy, hyz, hxz, hx, hy, hz, if_false] at h1 h2 ⊢
              exact le_of_lt (cmpIdentList_trans_neg
                (lt_of_le_of_ne h1 (cmpIdentList_ne_zero _ _))
                (lt_of_le_of_ne h2 (cmpIdentList_ne_zero _ _)))

theorem parsedCompare_self (p : ParsedSemver) : parsedCompare p p = 0 := by
  simp [parsedCompare, compareInt_self, cmpPrerelease_self]

theorem parsedCompare_flip_le {pv pw : ParsedSemver} (h : 0 ≤ parsedCompare pv pw) :
    parsedCompare pw pv ≤ 0 := by
  unfold parsedCompare at h ⊢
  by_cases hM : compareInt pv.major pw.major = 0
  · have eM : pv.major = pw.major := compareInt_eq_zero.mp hM
    have hM' : compareInt pw.major pv.major = 0 := by rw [eM, compareInt_self]
    simp only [hM, hM', ne_eq, not_true_eq_false, if_false] at h ⊢
    by_cases hm : compareInt pv.minor pw.minor = 0
    · have em : pv.minor = pw.minor := compareInt_eq_zero.mp hm
      have hm' : compareInt pw.minor pv.minor = 0 := by rw [em, compareInt_self]
      simp only [hm, hm', ne_eq, not_true_eq_false, if_false] at h ⊢
      by_cases hp : compareInt pv.patch pw.patch = 0
      · have ep : pv.patch = pw.patch := compareInt_eq_zero.mp hp
        have hp' : compareInt pw.patch pv.patch = 0 := by rw [ep, compareInt_self]
        simp only [hp, hp', ne_eq, not_true_eq_false, if_false] at h ⊢
        exact cmpPrerelease_flip_le h
      · simp only [ne_eq, hp, not_false_eq_true, if_true] at h
        have : compareInt pw.patch pv.patch ≤ 0 := by rw [compareInt_flip]; omega
        have hp' : compareInt pw.patch pv.patch ≠ 0 := by
          rw [compareInt_flip]; omega
        simp only [ne_eq, hp', not_false_eq_true, if_true]
        exact this
    · simp only [ne_eq, hm, not_false_eq_true, if_true] at h
      have : compareInt pw.minor pv.minor ≤ 0 := by rw [compareInt_flip]; omega
      have hm' : compareInt pw.minor pv.minor ≠ 0 := by rw [compareInt_flip]; omega
      simp only [ne_eq, hm', not_false_eq_true, if_true]
      exact this
  · simp only [ne_eq, hM, not_false_eq_true, if_true] at h
    have : compareInt pw.major pv.major ≤ 0 := by rw [compareInt_flip]; omega
    have hM' : compareInt pw.major pv.major ≠ 0 := by rw [compareInt_flip]; omega
    simp only [ne_eq, hM', not_false_eq_true, if_true]
    exact this

theorem compareInt_trans_le {x y z : List Char}
    (h1 : compareInt x y ≤ 0) (h2 : compareInt y z ≤ 0) : compareInt x z ≤ 0 := by
  by_cases e1 : compareInt x y = 0
  · rw [compareInt_eq_zero.mp e1]; exact h2
  · by_cases e2 : compareInt y z = 0
    · rw [← compareInt_eq_zero.mp e2]; exact h1
    · exact le_of_lt (compareInt_trans_neg (lt_of_le_of_ne h1 e1) (lt_of_le_of_ne h2 e2))

theorem parsedCompare_trans_le {pu pv pw : ParsedSemver}
    (h1 : parsedCompare pu pv ≤ 0) (h2 : parsedCompare pv pw ≤ 0) :
    parsedCompare pu pw ≤ 0 := by
  unfold parsedCompare at h1 h2 ⊢
  by_cases a1 : compareInt pu.major pv.major = 0
  · have e1 : pu.major = pv.major := compareInt_eq_zero.mp a1
    simp only [a1, ne_eq, not_true_eq_false, if_false] at h1
    by_cases a2 : compareInt pv.major pw.major = 0
    · have e2 : pv.major = pw.major := compareInt_eq_zero.mp a2
      have a3 : compareInt pu.major pw.major = 0 := by
        rw [e1, e2, compareInt_self]
      simp only [a2, ne_eq, not_true_eq_false, if_false] at h2
      simp only [a3, ne_eq, not_true_eq_false, if_false]
      -- minor level
      by_cases b1 : compareInt pu.minor pv.minor = 0
      · have f1 : pu.minor = pv.minor := compareInt_eq_zero.mp b1
        simp only [b1, ne_eq, not_true_eq_false, if_false] at h1
        by_cases b2 : compareInt pv.minor pw.minor = 0
        · have f2 : pv.minor = pw.minor := compareInt_eq_zero.mp b2
          have b3 : compareInt pu.minor pw.minor = 0 := by
            rw [f1, f2, compareInt_self]
          simp only [b2, ne_eq, not_true_eq_false, if_false] at h2
          simp only [b3, ne_eq, not_true_eq_false, if_false]
          -- patch level
          by_cases c1 : compareInt pu.patch pv.patch = 0
          · have g1 : pu.patch = pv.patch := compareInt_eq_zero.mp c1
            simp only [c1, ne_eq, not_true_eq_false, if_false] at h1
            by_cases c2 : compareInt pv.patch pw.patch = 0
            · have g2 : pv.patch = pw.patch := compareInt_eq_zero.mp c2
              have c3 : compareInt pu.patch pw.patch = 0 := by
                rw [g1, g2, compareInt_self]
              simp only [c2, ne_eq, not_true_eq_false, if_false] at h2
              simp only [c3, ne_eq, not_true_eq_false, if_false]
              exact cmpPrerelease_trans_le h1 h2
            · simp only [ne_eq, c2, not_false_eq_true, if_true] at h2
              have hlt : compareInt pu.patch pw.patch ≤ 0 := by
                rw [g1]; exact h2
              have hne : compareInt pu.patch pw.patch ≠ 0 := by
                rw [g1]; exact c2
              simp only [ne_eq, hne, not_false_eq_true, if_true]
              exact hlt
          · simp only [ne_eq, c1, not_false_eq_true, if_true] at h1
            by_cases c2 : compareInt pv.patch pw.patch = 0
            · have g2 : pv.patch = pw.patch := compareInt_eq_zero.mp c2
              have hlt : compareInt pu.patch pw.patch ≤ 0 := by
                rw [← g2]; exact h1
              have hne : compareInt pu.patch pw.patch ≠ 0 := by
                rw [← g2]; exact c1
              simp only [ne_eq, hne, not_false_eq_true, if_true]
              exact hlt
            · simp only [ne_eq, c2, not_false_eq_true, if_true] at h2
              have hlt : compareInt pu.patch pw.patch < 0 :=
                compareInt_trans_neg (lt_of_le_of_ne h1 c1) (lt_of_le_of_ne h2 c2)
              have hne : compareInt pu.patch pw.patch ≠ 0 := by omega
              simp only [ne_eq, hne, not_false_eq_true, if_true]
              omega
        · simp only [ne_eq, b2, not_false_eq_true, if_true] at h2
          have hlt : compareInt pu.minor pw.minor ≤ 0 := by
            rw [f1]; exact h2
          have hne : compareInt pu.minor pw.minor ≠ 0 := by
            rw [f1]; exact b2
          simp only [ne_eq, hne, not_false_eq_true, if_true]
          exact hlt
      · simp only [ne_eq, b1, not_false_eq_true, if_true] at h1
        by_cases b2 : compareInt pv.minor pw.minor = 0
        · have f2 : pv.minor = pw.minor := compareInt_eq_zero.mp b2
          have hlt : compareInt pu.minor pw.minor ≤ 0 := by
            rw [← f2]; exact h1
          have hne : compareInt pu.minor pw.minor ≠ 0 := by
            rw [← f2]; exact b1
          simp only [ne_eq, hne, not_false_eq_true, if_true]
          exact hlt
        · simp only [ne_eq, b2, not_false_eq_true, if_true] at h2
          have hlt : compareInt pu.minor pw.minor < 0 :=
            compareInt_trans_neg (lt_of_le_of_ne h1 b1) (lt_of_le_of_ne h2 b2)
          have hne : compareInt pu.minor pw.minor ≠ 0 := by omega
          simp only [ne_eq, hne, not_false_eq_true, if_true]
          omega
    · simp only [ne_eq, a2, not_false_eq_true, if_true] at h2
      have hlt : compareInt pu.major pw.major ≤ 0 := by
        rw [e1]; exact h2
      have hne : compareInt pu.major pw.major ≠ 0 := by
        rw [e1]; exact a2
      simp only [ne_eq, hne, not_false_eq_true, if_true]
      exact hlt
  · simp only [ne_eq, a1, not_false_eq_true, if_true] at h1
    by_cases a2 : compareInt pv.major pw.major = 0
    · have e2 : pv.major = pw.major := compareInt_eq_zero.mp a2
      have hlt : compareInt pu.major pw.major ≤ 0 := by
        rw [← e2]; exact h1
      have hne : compareInt pu.major pw.major ≠ 0 := by
        rw [← e2]; exact a1
      simp only [ne_eq, hne, not_false_eq_true, if_true]
      exact hlt
    · simp only [ne_eq, a2, not_false_eq_true, if_true] at h2
      have hlt : compareInt pu.major pw.major < 0 :=
        compareInt_trans_neg (lt_of_le_of_ne h1 a1) (lt_of_le_of_ne h2 a2)
      have hne : compareInt pu.major pw.major ≠ 0 := by omega
      simp only [ne_eq, hne, not_false_eq_true, if_true]
      omega

theorem semverCompare_self (v : String) : semverCompare v v = 0 := by
  unfold semverCompare
  cases h : parseSemver v.data with
  | none => rfl
  | some p => exact parsedCompare_self p

theorem semverCompare_flip_le {v w : String} (h : 0 ≤ semverCompare v w) :
    semverCompare w v ≤ 0 := by
  unfold semverCompare at h ⊢
  cases hv : parseSemver v.data with
  | none =>
    cases hw : parseSemver w.data with
    | none => simp
    | some pw =>
      rw [hv, hw] at h
      exact absurd (show (0 : Int) ≤ -1 from h) (by decide)
  | some pv =>
    cases hw : parseSemver w.data with
    | none => simp
    | some pw =>
      rw [hv, hw] at h
      exact parsedCompare_flip_le h

theorem semverCompare_trans_le {u v w : String}
    (h1 : semverCompare u v ≤ 0) (h2 : semverCompare v w ≤ 0) :
    semverCompare u w ≤ 0 := by
  unfold semverCompare at h1 h2 ⊢
  cases hu : parseSemver u.data with
  | none =>
    cases hw : parseSemver w.data with
    | none => simp
    | some pw => simp
  | some pu =>
    cases hv : parseSemver v.data with
    | none =>
      rw [hu, hv] at h1
      exact absurd (show (1 : Int) ≤ 0 from h1) (by decide)
    | some pv =>
      cases hw : parseSemver w.data with
      | none =>
        rw [hv, hw] at h2
        exact absurd (show (1 : Int) ≤ 0 from h2) (by decide)
      | some pw =>
        rw [hu, hv] at h1
        rw [hv, hw] at h2
        exact parsedCompare_trans_le h1 h2

/-- The strict version used when a new record displaces the running
winner: strictly-lower then at-most gives at-most. -/
theorem semverCompare_lt_trans_le {u v w : String}
    (h1 : semverCompare u v < 0) (h2 : semverCompare v w ≤ 0) :
    semverCompare u w ≤ 0 :=
  semverCompare_trans_le (le_of_lt h1) h2

/-- Not strictly lower flips to at-most: used when the running winner
survives a challenge. -/
theorem semverCompare_not_lt {u v : String} (h : ¬semverCompare u v < 0) :
    semverCompare v u ≤ 0 :=
  semverCompare_flip_le (not_lt.mp h)

/-! ## Structural facts about the association-list model of `byKey` -/

theorem lookupKey_setKey_self (m : List (String × Replace)) (k : String) (r : Replace) :
    lookupKey (setKey m k r) k = some r := by
  induction m with
  | nil => simp [setKey, lookupKey]
  | cons e m ih =>
    obtain ⟨k', r'⟩ := e
    by_cases h : k' = k
    · subst h; simp [setKey, lookupKey]
    · simp [setKey, lookupKey, h, ih]

theorem lookupKey_setKey_ne (m : List (String × Replace)) {k k' : String} (r : Replace)
    (h : k' ≠ k) : lookupKey (setKey m k r) k' = lookupKey m k' := by
  induction m with
  | nil => simp [setKey, lookupKey, Ne.symm h]
  | cons e m ih =>
    obtain ⟨k'', r''⟩ := e
    by_cases h2 : k'' = k
    · subst h2
      simp [setKey, lookupKey, Ne.symm h]
    · simp only [setKey, h2, if_false]
      by_cases h3 : k'' = k'
      · simp [lookupKey, h3]
      · simp [lookupKey, h3, ih]

theorem setKey_not_mem {m : List (String × Replace)} {k : String} (r : Replace)
    (h : k ∉ m.map Prod.fst) : setKey m k r = m ++ [(k, r)] := by
  induction m with
  | nil => simp [setKey]
  | cons e m ih =>
    obtain ⟨k', r'⟩ := e
    simp only [List.map_cons, List.mem_cons] at h
    push_neg at h
    simp [setKey, Ne.symm h.1, ih h.2]

theorem lookupKey_not_mem {m : List (String × Replace)} {k : String}
    (h : k ∉ m.map Prod.fst) : lookupKey m k = none := by
  induction m with
  | nil => rfl
  | cons e m ih =>
    obtain ⟨k', r'⟩ := e
    simp only [List.map_cons, List.mem_cons] at h
    push_neg at h
    simp [lookupKey, Ne.symm h.1, ih h.2]

theorem keys_setKey_mem {m : List (String × Replace)} {k : String} (r : Replace)
    (h : k ∈ m.map Prod.fst) : (setKey m k r).map Prod.fst = m.map Prod.fst := by
  induction m with
  | nil => simp at h
  | cons e m ih =>
    obtain ⟨k', r'⟩ := e
    by_cases h2 : k' = k
    · subst h2; simp [setKey]
    · simp only [List.map_cons, List.mem_cons] at h
      rcases h with h | h
      · exact absurd h.symm h2
      · simp [setKey, h2, ih h]

theorem mem_setKey {m : List (String × Replace)} {k : String} {r : Replace} {e : String × Replace}
    (h : e ∈ setKey m k r) : e ∈ m ∨ e = (k, r) := by
  induction m with
  | nil => simp [setKey] at h; simp [h]
  | cons e' m ih =>
    obtain ⟨k', r'⟩ := e'
    by_cases h2 : k' = k
    · have h' : e = (k, r) ∨ e ∈ m := by
        simpa [setKey, h2] using h
      rcases h' with h'' | h''
      · exact Or.inr h''
      · exact Or.inl (List.mem_cons_of_mem _ h'')
    · have h' : e = (k', r') ∨ e ∈ setKey m k r := by
        simpa [setKey, h2] using h
      rcases h' with h'' | h''
      · exact Or.inl (by simp [h''])
      · rcases ih h'' with h3 | h3
        · exact Or.inl (List.mem_cons_of_mem _ h3)
        · exact Or.inr h3

/-! ## The per-group running minimum -/

theorem pickMin_nil (w : Replace) : pickMin w [] = w := rfl

theorem pickMin_cons (w r : Replace) (g : List Replace) :
    pickMin w (r :: g) = pickMin (if semverCompare r.NewVer w.NewVer < 0 then r else w) g := rfl

theorem pickMin_append (w : Replace) (g1 g2 : List Replace) :
    pickMin w (g1 ++ g2) = pickMin (pickMin w g1) g2 := by
  simp [pickMin, List.foldl_append]

theorem pickMin_mem : ∀ (g : List Replace) (w : Replace), pickMin w g ∈ w :: g := by
  intro g
  induction g with
  | nil => intro w; simp [pickMin_nil]
  | cons r g ih =>
    intro w
    rw [pickMin_cons]
    split_ifs with h
    · have := ih r
      simp only [List.mem_cons] at this ⊢
      tauto
    · have := ih w
      simp only [List.mem_cons] at this ⊢
      tauto

theorem pickMin_min :
    ∀ (g : List Replace) (w : Replace), ∀ r ∈ w :: g,
      semverCompare (pickMin w g).NewVer r.NewVer ≤ 0 := by
  intro g
  induction g with
  | nil =>
    intro w r hr
    simp only [List.mem_singleton] at hr
    subst hr
    rw [pickMin_nil, semverCompare_self]
  | cons q g ih =>
    intro w r hr
    rw [pickMin_cons]
    simp only [List.mem_cons] at hr
    split_ifs with h
    · -- q displaces w
      rcases hr with rfl | rfl | hr
      · exact semverCompare_trans_le (ih q q (by simp)) (le_of_lt h)
      · exact ih r r (by simp)
      · exact ih q r (by simp [hr])
    · -- w survives
      rcases hr with rfl | rfl | hr
      · exact ih r r (by simp)
      · exact semverCompare_trans_le (ih w w (by simp)) (semverCompare_not_lt h)
      · exact ih w r (by simp [hr])

theorem pickMin_keep :
    ∀ (g : List Replace) (w : Replace),
      (∀ q ∈ g, ¬semverCompare q.NewVer w.NewVer < 0) → pickMin w g = w := by
  intro g
  induction g with
  | nil => intro w _; rfl
  | cons q g ih =>
    intro w h
    rw [pickMin_cons, if_neg (h q (by simp))]
    exact ih w fun q' hq' => h q' (by simp [hq'])

/-- The first record of a group that is weakly minimal (strictly below
everything before it, not strictly above anything after it) is the
group's winner. -/
theorem groupWinner_first {pre post : List Replace} {r : Replace}
    (hpre : ∀ p ∈ pre, semverCompare r.NewVer p.NewVer < 0)
    (hpost : ∀ q ∈ post, ¬semverCompare q.NewVer r.NewVer < 0) :
    groupWinner (pre ++ r :: post) = some r := by
  cases pre with
  | nil =>
    simp only [List.nil_append, groupWinner]
    rw [pickMin_keep post r hpost]
  | cons p0 pre =>
    simp only [List.cons_append, groupWinner]
    rw [show pre ++ r :: post = (pre ++ [r]) ++ post from by simp, pickMin_append, pickMin_append]
    have hw1 : pickMin p0 pre ∈ p0 :: pre := pickMin_mem pre p0
    have hlt : semverCompare r.NewVer (pickMin p0 pre).NewVer < 0 := hpre _ hw1
    have hstep : pickMin (pickMin p0 pre) [r] = r := by
      rw [pickMin_cons, if_pos hlt, pickMin_nil]
    rw [hstep, pickMin_keep post r hpost]

/-! ## Bridging `dedupMap` lookups to per-group folds -/

/-- The winner of a key after folding, given the winner so far. -/
def optPick : Option Replace → List Replace → Option Replace
  | none, g => groupWinner g
  | some w, g => some (pickMin w g)

theorem optPick_nil (x : Option Replace) : optPick x [] = x := by
  cases x <;> rfl

theorem optPick_cons (x : Option Replace) (r : Replace) (g : List Replace) :
    optPick x (r :: g) = optPick (optPick x [r]) g := by
  cases x <;> rfl

theorem lookupKey_none_iff {m : List (String × Replace)} {k : String} :
    lookupKey m k = none ↔ k ∉ m.map Prod.fst := by
  induction m with
  | nil => simp [lookupKey]
  | cons e m ih =>
    obtain ⟨k', r'⟩ := e
    by_cases h : k' = k
    · simp [lookupKey, h]
    · simp [lookupKey, h, ih, Ne.symm h]

/-- `dedupStep` with the let binding expanded. -/
theorem dedupStep_eq (m : List (String × Replace)) (r : Replace) :
    dedupStep m r =
      match lookupKey m (dedupKey r) with
      | none => setKey m (dedupKey r) r
      | some existing =>
        if semverCompare r.NewVer existing.NewVer < 0 then setKey m (dedupKey r) r else m := rfl

theorem dedupStep_none {m : List (String × Replace)} {r : Replace}
    (hl : lookupKey m (dedupKey r) = none) : dedupStep m r = setKey m (dedupKey r) r := by
  rw [dedupStep_eq, hl]

theorem dedupStep_some_lt {m : List (String × Replace)} {r w : Replace}
    (hl : lookupKey m (dedupKey r) = some w) (hc : semverCompare r.NewVer w.NewVer < 0) :
    dedupStep m r = setKey m (dedupKey r) r := by
  rw [dedupStep_eq, hl]
  exact if_pos hc

theorem dedupStep_some_ge {m : List (String × Replace)} {r w : Replace}
    (hl : lookupKey m (dedupKey r) = some w) (hc : ¬semverCompare r.NewVer w.NewVer < 0) :
    dedupStep m r = m := by
  rw [dedupStep_eq, hl]
  exact if_neg hc

theorem lookupKey_dedupStep_ne {m : List (String × Replace)} {r : Replace} {k : String}
    (h : dedupKey r ≠ k) : lookupKey (dedupStep m r) k = lookupKey m k := by
  cases hl : lookupKey m (dedupKey r) with
  | none =>
    rw [dedupStep_none hl]
    exact lookupKey_setKey_ne m r (Ne.symm h)
  | some w =>
    by_cases hc : semverCompare r.NewVer w.NewVer < 0
    · rw [dedupStep_some_lt hl hc]
      exact lookupKey_setKey_ne m r (Ne.symm h)
    · rw [dedupStep_some_ge hl hc]

theorem lookupKey_dedupStep_self (m : List (String × Replace)) (r : Replace) :
    lookupKey (dedupStep m r) (dedupKey r) = optPick (lookupKey m (dedupKey r)) [r] := by
  cases hl : lookupKey m (dedupKey r) with
  | none =>
    rw [dedupStep_none hl, lookupKey_setKey_self]
    rfl
  | some w =>
    by_cases hc : semverCompare r.NewVer w.NewVer < 0
    · rw [dedupStep_some_lt hl hc, lookupKey_setKey_self]
      show _ = some (pickMin w [r])
      rw [pickMin_cons, if_pos hc, pickMin_nil]
    · rw [dedupStep_some_ge hl hc, hl]
      show _ = some (pickMin w [r])
      rw [pickMin_cons, if_neg hc, pickMin_nil]

theorem lookupKey_foldl (l : List Replace) :
    ∀ (m : List (String × Replace)) (k : String),
      lookupKey (l.foldl dedupStep m) k =
        optPick (lookupKey m k) (l.filter (fun r => dedupKey r = k)) := by
  induction l with
  | nil => intro m k; simp [optPick_nil]
  | cons r l ih =>
    intro m k
    rw [List.foldl_cons, ih]
    by_cases h : dedupKey r = k
    · rw [List.filter_cons_of_pos (by simp [h]), optPick_cons]
      subst h
      rw [lookupKey_dedupStep_self]
    · rw [List.filter_cons_of_neg (by simp [h]), lookupKey_dedupStep_ne h]

/-- The value stored for key `k` is the winner of the group of input
records whose key is `k`, in input order. -/
theorem dedupMap_lookup (rs : List Replace) (k : String) :
    lookupKey (dedupMap rs) k = groupWinner (rs.filter (fun r => dedupKey r = k)) := by
  rw [dedupMap, lookupKey_foldl]
  rfl

/-! ## Invariants of the accumulated map -/

theorem dedupStep_keys_nodup {m : List (String × Replace)} {r : Replace}
    (h : (m.map Prod.fst).Nodup) : ((dedupStep m r).map Prod.fst).Nodup := by
  cases hl : lookupKey m (dedupKey r) with
  | none =>
    have hnot : dedupKey r ∉ m.map Prod.fst := lookupKey_none_iff.mp hl
    rw [dedupStep_none hl, setKey_not_mem r hnot]
    simp [List.nodup_append, h, hnot]
  | some w =>
    have hmem : dedupKey r ∈ m.map Prod.fst := by
      by_contra hc
      rw [lookupKey_not_mem hc] at hl
      exact Option.noConfusion hl
    by_cases hc : semverCompare r.NewVer w.NewVer < 0
    · rw [dedupStep_some_lt hl hc, keys_setKey_mem r hmem]
      exact h
    · rw [dedupStep_some_ge hl hc]
      exact h

theorem dedupStep_entry {m : List (String × Replace)} {r : Replace}
    (h : ∀ e ∈ m, dedupKey e.2 = e.1) : ∀ e ∈ dedupStep m r, dedupKey e.2 = e.1 := by
  intro e he
  cases hl : lookupKey m (dedupKey r) with
  | none =>
    rw [dedupStep_none hl] at he
    rcases mem_setKey he with h' | h'
    · exact h e h'
    · subst h'; rfl
  | some w =>
    by_cases hc : semverCompare r.NewVer w.NewVer < 0
    · rw [dedupStep_some_lt hl hc] at he
      rcases mem_setKey he with h' | h'
      · exact h e h'
      · subst h'; rfl
    · rw [dedupStep_some_ge hl hc] at he
      exact h e he

theorem dedupStep_values {m : List (String × Replace)} {r : Replace} :
    ∀ e ∈ dedupStep m r, e ∈ m ∨ e.2 = r := by
  intro e he
  cases hl : lookupKey m (dedupKey r) with
  | none =>
    rw [dedupStep_none hl] at he
    rcases mem_setKey he with h' | h'
    · exact Or.inl h'
    · subst h'; exact Or.inr rfl
  | some w =>
    by_cases hc : semverCompare r.NewVer w.NewVer < 0
    · rw [dedupStep_some_lt hl hc] at he
      rcases mem_setKey he with h' | h'
      · exact Or.inl h'
      · subst h'; exact Or.inr rfl
    · rw [dedupStep_some_ge hl hc] at he
      exact Or.inl he

theorem foldl_keys_nodup (l : List Replace) :
    ∀ m, ((m.map Prod.fst).Nodup) → (((l.foldl dedupStep m).map Prod.fst).Nodup) := by
  induction l with
  | nil => intro m h; exact h
  | cons r l ih =>
    intro m h
    rw [List.foldl_cons]
    exact ih _ (dedupStep_keys_nodup h)

theorem dedupMap_keys_nodup (rs : List Replace) : (((dedupMap rs).map Prod.fst).Nodup) :=
  foldl_keys_nodup rs [] (by simp)

theorem foldl_entry (l : List Replace) :
    ∀ m, (∀ e ∈ m, dedupKey e.2 = e.1) →
      ∀ e ∈ l.foldl dedupStep m, dedupKey e.2 = e.1 := by
  induction l with
  | nil => intro m h; exact h
  | cons r l ih =>
    intro m h
    rw [List.foldl_cons]
    exact ih _ (dedupStep_entry h)

theorem dedupMap_entry (rs : List Replace) : ∀ e ∈ dedupMap rs, dedupKey e.2 = e.1 :=
  foldl_entry rs [] (by simp)

theorem foldl_values (l : List Replace) :
    ∀ m e, e ∈ l.foldl dedupStep m → e ∈ m ∨ e.2 ∈ l := by
  induction l with
  | nil => intro m e h; exact Or.inl h
  | cons r l ih =>
    intro m e h
    rw [List.foldl_cons] at h
    rcases ih _ e h with h' | h'
    · rcases dedupStep_values e h' with h'' | h''
      · exact Or.inl h''
      · exact Or.inr (by simp [h''])
    · exact Or.inr (by simp [h'])

theorem dedupMap_values {rs : List Replace} {e : String × Replace}
    (h : e ∈ dedupMap rs) : e.2 ∈ rs := by
  rcases foldl_values rs [] e h with h' | h'
  · simp at h'
  · exact h'

/-- Every record in the reconciled output occurs in the input. -/
theorem dedup_sub {rs : List Replace} {r : Replace} (h : r ∈ Deduplicate rs) : r ∈ rs := by
  unfold Deduplicate at h
  rcases List.mem_map.mp h with ⟨e, he, rfl⟩
  exact dedupMap_values he

/-! ## Exactly one entry per key -/

theorem entries_filter {k : String} :
    ∀ {m : List (String × Replace)}, (m.map Prod.fst).Nodup →
      m.filter (fun e => e.1 = k) =
        (match lookupKey m k with
         | none => []
         | some w => [(k, w)]) := by
  intro m
  induction m with
  | nil => intro _; rfl
  | cons e m ih =>
    intro hn
    obtain ⟨k', r'⟩ := e
    simp only [List.map_cons, List.nodup_cons] at hn
    by_cases h : k' = k
    · subst h
      rw [List.filter_cons_of_pos (by simp)]
      have hl : lookupKey ((k', r') :: m) k' = some r' := by simp [lookupKey]
      rw [hl]
      have h0 : lookupKey m k' = none := lookupKey_not_mem hn.1
      have hfin := ih hn.2
      rw [h0] at hfin
      rw [hfin]
    · rw [List.filter_cons_of_neg (by simp [h])]
      have hl : lookupKey ((k', r') :: m) k = lookupKey m k := by simp [lookupKey, h]
      rw [hl]
      exact ih hn.2

/-- The reconciled output holds exactly one record per inhabited key:
its records with key `k` are precisely the looked-up winner. -/
theorem dedup_filter (rs : List Replace) (k : String) :
    (Deduplicate rs).filter (fun x => dedupKey x = k) =
      (match lookupKey (dedupMap rs) k with
       | none => []
       | some w => [w]) := by
  unfold Deduplicate
  rw [List.filter_map]
  have hcongr : (dedupMap rs).filter
        ((fun x => decide (dedupKey x = k)) ∘ Prod.snd) =
      (dedupMap rs).filter (fun e => e.1 = k) := by
    apply List.filter_congr
    intro e he
    have hk := dedupMap_entry rs e he
    simp [Function.comp, hk]
  rw [hcongr, entries_filter (dedupMap_keys_nodup rs)]
  cases lookupKey (dedupMap rs) k <;> simp

/-- Keys of the reconciled output are exactly the keys present in the
input. -/
theorem lookupKey_isSome_iff (rs : List Replace) (k : String) :
    (lookupKey (dedupMap rs) k).isSome = true ↔ ∃ r ∈ rs, dedupKey r = k := by
  rw [dedupMap_lookup]
  cases hg : rs.filter (fun r => dedupKey r = k) with
  | nil =>
    simp only [groupWinner, Option.isSome_none]
    constructor
    · intro h; exact absurd h (by simp)
    · rintro ⟨r, hr, hk⟩
      have : r ∈ rs.filter (fun r => dedupKey r = k) := by
        rw [List.mem_filter]
        exact ⟨hr, by simp [hk]⟩
      rw [hg] at this
      simp at this
  | cons h t =>
    simp only [groupWinner, Option.isSome_some, true_iff]
    have : h ∈ rs.filter (fun r => dedupKey r = k) := by rw [hg]; simp
    rw [List.mem_filter] at this
    exact ⟨h, this.1, by simpa using this.2⟩

/-! ## Idempotence machinery -/

/-- Folding records whose keys are all fresh simply appends them. -/
theorem foldl_fresh :
    ∀ (l : List Replace) (m : List (String × Replace)),
      ((m.map Prod.fst ++ l.map dedupKey).Nodup) →
      l.foldl dedupStep m = m ++ l.map (fun r => (dedupKey r, r)) := by
  intro l
  induction l with
  | nil => intro m _; simp
  | cons r l ih =>
    intro m h
    have hnotm : dedupKey r ∉ m.map Prod.fst := by
      intro hc
      rw [List.nodup_append] at h
      exact h.2.2 hc (by simp)
    have hl : lookupKey m (dedupKey r) = none := lookupKey_not_mem hnotm
    rw [List.foldl_cons, dedupStep_none hl, setKey_not_mem r hnotm]
    rw [ih (m ++ [(dedupKey r, r)]) (by simpa [List.append_assoc] using h)]
    simp

theorem dedup_keys_nodup (rs : List Replace) : ((Deduplicate rs).map dedupKey).Nodup := by
  unfold Deduplicate
  rw [List.map_map]
  have he : (dedupMap rs).map (dedupKey ∘ Prod.snd) = (dedupMap rs).map Prod.fst :=
    List.map_congr_left fun e he => dedupMap_entry rs e he
  rw [he]
  exact dedupMap_keys_nodup rs

/-- On a list whose keys are already distinct, `Deduplicate` is the
identity. -/
theorem dedup_of_nodup {l : List Replace} (h : (l.map dedupKey).Nodup) :
    Deduplicate l = l := by
  unfold Deduplicate dedupMap
  rw [foldl_fresh l [] (by simpa using h)]
  rw [List.nil_append, List.map_map,
    show (Prod.snd ∘ fun r : Replace => (dedupKey r, r)) = id from rfl, List.map_id]

/-! ## Concrete records used to instantiate the claim theorems -/

/-- A record overriding module `a`. -/
def cr1 : Replace := ⟨"a", "b", "", "v1.0.0", "d1"⟩

/-- A record overriding module `c` (a second, distinct key). -/
def cr2 : Replace := ⟨"c", "d", "", "v1.0.0", "d2"⟩

/-- The conflicting pair of the spec's example: the same key pinned to
`v2.0.0` by one dependency and to `v1.0.0` by another. -/
def rsC2 : List Replace :=
  [⟨"github.com/foo", "github.com/bar", "", "v2.0.0", "dep1"⟩,
   ⟨"github.com/foo", "github.com/bar", "", "v1.0.0", "dep2"⟩]

/-- First of two records whose versions are semver-equal. -/
def crTie1 : Replace := ⟨"m", "n", "", "v1.0.0", "d1"⟩

/-- Second record with an equal version (`v1` parses as `v1.0.0`). -/
def crTie2 : Replace := ⟨"m", "n", "", "v1", "d2"⟩

/-! ## Claim theorems -/

/-- C1 (counterexample): Go's `Deduplicate` enumerates the `byKey` map
with `for range`, whose order is unspecified, so two invocations on the
same two-key input may return the two winners in either order; the
output list is not determined by the input. -/
theorem claim_C1_counterexample :
    ¬(∀ input out1 out2 : List Replace,
        DeduplicateOutputs input out1 → DeduplicateOutputs input out2 → out1 = out2) := by
  intro h
  have := h [cr1, cr2] [cr1, cr2] [cr2, cr1] (by decide) (by decide)
  exact absurd this (by decide)

/-- C1 (amended): two invocations of `Deduplicate` on the same input
agree up to permutation — the result is deterministic as a multiset
(and hence as a set), but its enumeration order is not. -/
theorem claim_C1 (input out1 out2 : List Replace)
    (h1 : DeduplicateOutputs input out1) (h2 : DeduplicateOutputs input out2) :
    out1.Perm out2 :=
  h1.trans h2.symm

theorem claim_C1_witness :
    DeduplicateOutputs [cr1, cr2] [cr1, cr2] ∧ DeduplicateOutputs [cr1, cr2] [cr2, cr1] ∧
      ([cr1, cr2] : List Replace).Perm [cr2, cr1] :=
  ⟨by decide, by decide, claim_C1 [cr1, cr2] [cr1, cr2] [cr2, cr1] (by decide) (by decide)⟩

/-- C2: for every inhabited key group, `Deduplicate` keeps exactly one
record of the group, and that record's `NewVer` is lowest under
`semver.Compare` among the group's candidates. -/
theorem claim_C2 (rs : List Replace) (k : String) (h : ∃ r ∈ rs, dedupKey r = k) :
    ∃ w, (Deduplicate rs).filter (fun x => dedupKey x = k) = [w] ∧ w ∈ rs ∧ dedupKey w = k ∧
      ∀ r ∈ rs, dedupKey r = k → semverCompare w.NewVer r.NewVer ≤ 0 := by
  have hsome := (lookupKey_isSome_iff rs k).mpr h
  obtain ⟨w, hw⟩ := Option.isSome_iff_exists.mp hsome
  have hg := dedupMap_lookup rs k
  rw [hw] at hg
  cases hfil : rs.filter (fun r => dedupKey r = k) with
  | nil => rw [hfil] at hg; exact absurd hg.symm (by simp [groupWinner])
  | cons g0 gt =>
    rw [hfil] at hg
    simp only [groupWinner, Option.some_inj] at hg
    have hwmem : w ∈ g0 :: gt := by rw [hg]; exact pickMin_mem gt g0
    have hwfil : w ∈ rs.filter (fun r => dedupKey r = k) := by rw [hfil]; exact hwmem
    rw [List.mem_filter] at hwfil
    refine ⟨w, ?_, hwfil.1, by simpa using hwfil.2, ?_⟩
    · rw [dedup_filter, hw]
    · intro r hr hk
      have hrfil : r ∈ rs.filter (fun x => dedupKey x = k) := by
        rw [List.mem_filter]
        exact ⟨hr, by simp [hk]⟩
      rw [hfil] at hrfil
      have hmin := pickMin_min gt g0 r hrfil
      rw [hg]
      exact hmin

theorem claim_C2_witness :
    (∃ r ∈ rsC2, dedupKey r = "github.com/foo") ∧
    (∃ w, (Deduplicate rsC2).filter (fun x => dedupKey x = "github.com/foo") = [w] ∧
      w ∈ rsC2 ∧ dedupKey w = "github.com/foo" ∧
      ∀ r ∈ rsC2, dedupKey r = "github.com/foo" →
        semverCompare w.NewVer r.NewVer ≤ 0) ∧
    (Deduplicate rsC2).map Replace.NewVer = ["v1.0.0"] :=
  ⟨by decide, claim_C2 rsC2 "github.com/foo" (by decide), by decide⟩

/-- C4: the `ParseReplaces` filter keeps only non-local records, and no
possible output of `Deduplicate` over lists of non-local records holds
a record whose `New` target is local. -/
theorem claim_C4 :
    (∀ raw : List Replace, ∀ r ∈ parseReplacesFilter raw, r.IsLocal = false) ∧
    (∀ rs out : List Replace, (∀ x ∈ rs, x.IsLocal = false) → DeduplicateOutputs rs out →
      ∀ r ∈ out, r.IsLocal = false) := by
  constructor
  · intro raw r hr
    rw [parseReplacesFilter, List.mem_filter] at hr
    simpa using hr.2
  · intro rs out hloc hout r hr
    exact hloc r (dedup_sub (hout.mem_iff.mp hr))

theorem claim_C4_witness :
    (∀ r ∈ parseReplacesFilter [⟨"github.com/local", "./local", "", "", ""⟩, cr1],
      r.IsLocal = false) ∧
    (∀ x ∈ [cr1, cr2], x.IsLocal = false) ∧ DeduplicateOutputs [cr1, cr2] [cr2, cr1] ∧
    (∀ r ∈ [cr2, cr1], r.IsLocal = false) :=
  ⟨fun r hr => claim_C4.1 _ r hr, by decide, by decide,
    claim_C4.2 [cr1, cr2] [cr2, cr1] (by decide) (by decide)⟩

/-- C8: `Deduplicate` is idempotent up to set equality — reapplying it
to any possible output yields a list with the same members. -/
theorem claim_C8 (x y z : List Replace)
    (h1 : DeduplicateOutputs x y) (h2 : DeduplicateOutputs y z) :
    ∀ r, r ∈ z ↔ r ∈ y := by
  have hny : (y.map dedupKey).Nodup := ((h1.map dedupKey).symm).nodup (dedup_keys_nodup x)
  have hdy : Deduplicate y = y := dedup_of_nodup hny
  rw [DeduplicateOutputs, hdy] at h2
  intro r
  exact h2.mem_iff

theorem claim_C8_witness :
    DeduplicateOutputs [cr1, cr1, cr2] [cr2, cr1] ∧ DeduplicateOutputs [cr2, cr1] [cr1, cr2] ∧
      ∀ r, r ∈ [cr1, cr2] ↔ r ∈ ([cr2, cr1] : List Replace) :=
  ⟨by decide, by decide, claim_C8 [cr1, cr1, cr2] [cr2, cr1] [cr1, cr2] (by decide) (by decide)⟩

/-- C9: within a group, ties are broken by input position — the first
record of the group that is strictly below everything before it and not
strictly above anything after it (in particular the first of several
semver-equal minimal records) is the one retained. -/
theorem claim_C9 (rs : List Replace) (k : String) (pre post : List Replace) (r : Replace)
    (hg : rs.filter (fun x => dedupKey x = k) = pre ++ r :: post)
    (hpre : ∀ p ∈ pre, semverCompare r.NewVer p.NewVer < 0)
    (hpost : ∀ q ∈ post, ¬semverCompare q.NewVer r.NewVer < 0) :
    (Deduplicate rs).filter (fun x => dedupKey x = k) = [r] := by
  rw [dedup_filter, dedupMap_lookup, hg, groupWinner_first hpre hpost]

theorem claim_C9_witness :
    ([crTie1, crTie2].filter (fun x => dedupKey x = "m") = [] ++ crTie1 :: [crTie2]) ∧
    (∀ p ∈ ([] : List Replace), semverCompare crTie1.NewVer p.NewVer < 0) ∧
    (∀ q ∈ [crTie2], ¬semverCompare q.NewVer crTie1.NewVer < 0) ∧
    (Deduplicate [crTie1, crTie2]).filter (fun x => dedupKey x = "m") = [crTie1] :=
  ⟨by decide, by simp, by decide,
    claim_C9 [crTie1, crTie2] "m" [] [crTie2] crTie1 (by decide) (by simp) (by decide)⟩

/-! ## The local-path classifier against the spec's description -/

/-- The classification the spec describes, word for word: `.`, `..`,
`./` or `../` prefixes, a leading path separator, or a drive-letter
prefix of the form `<letter>:`. -/
def specLocalPath (t : String) : Bool :=
  (t.data == ['.']) || (t.data == ['.', '.']) ||
    ['.', '/'].isPrefixOf t.data || ['.', '.', '/'].isPrefixOf t.data ||
    ['/'].isPrefixOf t.data ||
    (match t.data with
     | c :: ':' :: _ => c.isAlpha
     | _ => false)

/-- The amended description: the code accepts any string whose UTF-8
encoding is at least two bytes long with `:` (byte 58) as its second
byte — no letter requirement on what precedes, and no requirement that
the second byte lie on a character boundary. -/
def specLocalPathAmended (t : String) : Bool :=
  (t.data == ['.']) || (t.data == ['.', '.']) ||
    ['.', '/'].isPrefixOf t.data || ['.', '.', '/'].isPrefixOf t.data ||
    ['/'].isPrefixOf t.data ||
    (match strBytes t.data with
     | _ :: 58 :: _ => true
     | _ => false)

/-- C3 (counterexample): `IsLocalPath` accepts `"1:"`, whose first
character is a digit, not a letter, so the spec's "drive-letter prefix
of the form `<letter>:`" does not cover everything the code accepts. -/
theorem claim_C3_counterexample :
    ¬(∀ t : String, IsLocalPath t = true ↔ specLocalPath t = true) := by
  intro h
  have := (h "1:").mp (by decide)
  exact absurd this (by decide)

/-- C3 (amended): `IsLocalPath t` is true exactly when `t` is `.` or
`..`, starts with `./`, `../` or `/`, or has the byte `:` at offset 1
of its UTF-8 encoding (any first byte, which need not be a letter and
need not even be a whole character); in particular it is false for the
empty string and for module-path identifiers. -/
theorem claim_C3 (t : String) : IsLocalPath t = true ↔ specLocalPathAmended t = true := by
  unfold IsLocalPath specLocalPathAmended
  split_ifs with h1 h2 h3 h4
  · -- empty string
    rw [h1]
    simp [List.isPrefixOf, strBytes]
  · -- ./ or ../ prefix
    rcases h2 with h2 | h2 <;> simp [h2]
  · -- exactly . or ..
    rcases h3 with h3 | h3 <;> simp [h3]
  · -- leading separator
    simp [h4]
  · -- remaining: only the second-character test
    rw [not_or] at h2 h3
    rw [Bool.not_eq_true] at h4
    obtain ⟨h2a, h2b⟩ := h2
    rw [Bool.not_eq_true] at h2a h2b
    simp [h2a, h2b, h3.1, h3.2, h4]

/-! ## Staleness detection -/

/-- C5: the stale list holds exactly the annotated records (non-empty
recovered `Source`) of the project's own manifest whose `Old` target is
not the `Old` of any reconciled record; in particular it is empty when
every annotated target is present. -/
theorem claim_C5 (raw current : List Replace) :
    (∀ r, r ∈ findStaleReplaces (withSourceFilter raw) current ↔
      r ∈ raw ∧ r.Source ≠ "" ∧ ∀ c ∈ current, c.Old ≠ r.Old) ∧
    ((∀ r ∈ withSourceFilter raw, ∃ c ∈ current, c.Old = r.Old) →
      findStaleReplaces (withSourceFilter raw) current = []) := by
  have hmem : ∀ r, r ∈ findStaleReplaces (withSourceFilter raw) current ↔
      r ∈ raw ∧ r.Source ≠ "" ∧ ∀ c ∈ current, c.Old ≠ r.Old := by
    intro r
    unfold findStaleReplaces withSourceFilter
    rw [List.mem_filter, List.mem_filter]
    constructor
    · rintro ⟨⟨hraw, hsrc⟩, hkey⟩
      refine ⟨hraw, by simpa using hsrc, ?_⟩
      intro c hc heq
      have : r.Old ∈ current.map (fun x => x.Old) :=
        List.mem_map.mpr ⟨c, hc, heq⟩
      simp [this] at hkey
    · rintro ⟨hraw, hsrc, hkey⟩
      refine ⟨⟨hraw, by simpa using hsrc⟩, ?_⟩
      simp only [decide_eq_true_eq, Bool.not_eq_true]
      have : r.Old ∉ current.map (fun x => x.Old) := by
        intro hc
        rcases List.mem_map.mp hc with ⟨c, hc', he⟩
        exact hkey c hc' he
      simp [this]
  refine ⟨hmem, ?_⟩
  intro h
  cases hs : findStaleReplaces (withSourceFilter raw) current with
  | nil => rfl
  | cons r t =>
    have hr : r ∈ findStaleReplaces (withSourceFilter raw) current := by rw [hs]; simp
    rw [hmem r] at hr
    have hr' : r ∈ withSourceFilter raw := by
      rw [withSourceFilter, List.mem_filter]
      exact ⟨hr.1, by simpa using hr.2.1⟩
    rcases h r hr' with ⟨c, hc, he⟩
    exact absurd he (hr.2.2 c hc)

/-- An annotated record previously applied on behalf of `D`. -/
def crStale : Replace := ⟨"x", "y", "", "v1.0.0", "D"⟩

/-- A record of the manifest with no recovered provenance. -/
def crPlain : Replace := ⟨"p", "q", "", "v1.0.0", ""⟩

/-- A reconciled record still overriding target `x`. -/
def crCur : Replace := ⟨"x", "z", "", "v0.1.0", "E"⟩

theorem claim_C5_witness :
    (crStale ∈ findStaleReplaces (withSourceFilter [crStale, crPlain]) [] ↔
      crStale ∈ [crStale, crPlain] ∧ crStale.Source ≠ "" ∧
        ∀ c ∈ ([] : List Replace), c.Old ≠ crStale.Old) ∧
    ((∀ r ∈ withSourceFilter [crStale, crPlain], ∃ c ∈ [crCur], c.Old = r.Old) ∧
      findStaleReplaces (withSourceFilter [crStale, crPlain]) [crCur] = []) :=
  ⟨(claim_C5 [crStale, crPlain] []).1 crStale,
   ⟨by decide, (claim_C5 [crStale, crPlain] [crCur]).2 (by decide)⟩⟩

/-! ## The provenance annotation rewrite -/

theorem containsSubstr_nil_pat : ∀ (s : List Char), containsSubstr [] s = true := by
  intro s
  cases s with
  | nil => rfl
  | cons c cs => simp [containsSubstr, List.isPrefixOf]

theorem containsSubstr_append (q x y : List Char) :
    containsSubstr q (x ++ q ++ y) = true := by
  induction x with
  | nil =>
    cases q with
    | nil => simpa using containsSubstr_nil_pat y
    | cons qc qt =>
      show containsSubstr (qc :: qt) (qc :: (qt ++ y)) = true
      have hp : (qc :: qt).isPrefixOf (qc :: (qt ++ y)) = true :=
        List.isPrefixOf_iff_prefix.mpr ⟨y, by simp⟩
      simp [containsSubstr, hp]
  | cons c x ih =>
    show containsSubstr q (c :: (x ++ q ++ y)) = true
    rw [containsSubstr]
    rw [List.append_assoc] at ih
    simp [ih]

/-- Where `strings.Replace(s, pat, rep, 1)` finds `pat`, it rewrites the
leftmost occurrence and nothing else. -/
theorem replaceFirst_of_found (pat rep : List Char) :
    ∀ {s : List Char}, containsSubstr pat s = true →
      ∃ a b, s = a ++ pat ++ b ∧ replaceFirst pat rep s = a ++ rep ++ b ∧
        ∀ a' b', s = a' ++ pat ++ b' → a.length ≤ a'.length := by
  intro s
  induction s with
  | nil =>
    intro h
    have hp : pat = [] := by
      simpa [containsSubstr, List.isEmpty_iff] using h
    subst hp
    exact ⟨[], [], rfl, by simp [replaceFirst], fun a' b' _ => Nat.zero_le _⟩
  | cons c cs ih =>
    intro h
    by_cases hpre : pat.isPrefixOf (c :: cs) = true
    · obtain ⟨t, ht⟩ := List.isPrefixOf_iff_prefix.mp hpre
      refine ⟨[], t, by simp [← ht], ?_, fun a' b' _ => Nat.zero_le _⟩
      show replaceFirst pat rep (c :: cs) = [] ++ rep ++ t
      rw [replaceFirst, if_pos hpre, ← ht]
      simp [List.drop_left]
    · have htail : containsSubstr pat cs = true := by
        have h' := h
        rw [containsSubstr, Bool.or_eq_true] at h'
        rcases h' with h' | h'
        · exact absurd h' hpre
        · exact h'
      obtain ⟨a, b, hs, hres, hmin⟩ := ih htail
      refine ⟨c :: a, b, by simp [hs], ?_, ?_⟩
      · show replaceFirst pat rep (c :: cs) = (c :: a) ++ rep ++ b
        rw [replaceFirst, if_neg hpre, hres]
        simp
      · intro a' b' hs'
        cases a' with
        | nil =>
          exfalso
          apply hpre
          apply List.isPrefixOf_iff_prefix.mpr
          exact ⟨b', by simpa using hs'.symm⟩
        | cons c' a'' =>
          have : cs = a'' ++ pat ++ b' := by
            have := hs'
            simp only [List.cons_append, List.cons_eq_cons] at this
            exact this.2
          have := hmin a'' b' this
          simp only [List.length_cons]
          omega

/-- C10: the annotation step is idempotent and duplicate-free: an
already-annotated manifest is left untouched; a second application
never appends the comment again; and a rewrite touches exactly the
first occurrence of the directive pattern. -/
theorem claim_C10 (r : Replace) (content : List Char) :
    (containsSubstr (sourcePattern r ++ sourceComment r) content = true →
      addSourceComment r content = content) ∧
    (addSourceComment r (addSourceComment r content) = addSourceComment r content) ∧
    (containsSubstr (sourcePattern r) content = true →
      containsSubstr (sourcePattern r ++ sourceComment r) content = false →
      ∃ pre suf, content = pre ++ sourcePattern r ++ suf ∧
        addSourceComment r content = pre ++ (sourcePattern r ++ sourceComment r) ++ suf ∧
        ∀ pre' suf', content = pre' ++ sourcePattern r ++ suf' →
          pre.length ≤ pre'.length) := by
  refine ⟨?_, ?_, ?_⟩
  · intro h
    unfold addSourceComment
    rw [if_neg]
    simp [h]
  · by_cases hc : (containsSubstr (sourcePattern r) content &&
        !containsSubstr (sourcePattern r ++ sourceComment r) content) = true
    · have hA : containsSubstr (sourcePattern r) content = true := by
        rw [Bool.and_eq_true] at hc
        exact hc.1
      obtain ⟨a, b, hs, hres, -⟩ :=
        replaceFirst_of_found (sourcePattern r) (sourcePattern r ++ sourceComment r) hA
      have h1 : addSourceComment r content = a ++ (sourcePattern r ++ sourceComment r) ++ b := by
        unfold addSourceComment
        rw [if_pos hc]
        exact hres
      rw [h1]
      unfold addSourceComment
      have hnotcond :
          ¬((containsSubstr (sourcePattern r)
                (a ++ (sourcePattern r ++ sourceComment r) ++ b) &&
              !containsSubstr (sourcePattern r ++ sourceComment r)
                (a ++ (sourcePattern r ++ sourceComment r) ++ b)) = true) := by
        rw [Bool.and_eq_true]
        rintro ⟨-, hB⟩
        rw [Bool.not_eq_true'] at hB
        rw [containsSubstr_append] at hB
        exact Bool.noConfusion hB
      rw [if_neg hnotcond]
    · have h1 : addSourceComment r content = content := by
        unfold addSourceComment
        rw [if_neg hc]
      simp only [h1]
  · intro hA hB
    obtain ⟨a, b, hs, hres, hmin⟩ :=
      replaceFirst_of_found (sourcePattern r) (sourcePattern r ++ sourceComment r) hA
    refine ⟨a, b, hs, ?_, hmin⟩
    unfold addSourceComment
    rw [if_pos (by simp [hA, hB])]
    exact hres

/-- A record and two manifest contents used to instantiate C10. -/
def crAnn : Replace := ⟨"a", "b", "", "v1.0.0", "src"⟩

/-- A manifest that already carries the annotation. -/
def annotated0 : List Char := "module t\nreplace a => b v1.0.0 // from: src\n".data

/-- A manifest with the bare directive, not yet annotated. -/
def content0 : List Char := "module t\nreplace a => b v1.0.0\n".data

theorem claim_C10_witness :
    (addSourceComment crAnn annotated0 = annotated0) ∧
    (addSourceComment crAnn (addSourceComment crAnn content0) =
      addSourceComment crAnn content0) ∧
    (∃ pre suf, content0 = pre ++ sourcePattern crAnn ++ suf ∧
      addSourceComment crAnn content0 =
        pre ++ (sourcePattern crAnn ++ sourceComment crAnn) ++ suf ∧
      ∀ pre' suf', content0 = pre' ++ sourcePattern crAnn ++ suf' →
        pre.length ≤ pre'.length) :=
  ⟨(claim_C10 crAnn annotated0).1 (by decide),
   (claim_C10 crAnn content0).2.1,
   (claim_C10 crAnn content0).2.2 (by decide) (by decide)⟩

/-! ## The orchestrator: dry-run and staleness degradation -/

theorem runCore_dryRun (env : Env) (opts : Options) (replaces stale : List Replace)
    (h : opts.DryRun = true) : (runCore env opts replaces stale).goMod = env.goMod0 := by
  unfold runCore
  by_cases h1 : replaces = [] ∧ stale = []
  · rw [if_pos h1]
  · rw [if_neg h1, if_pos h]

/-- C6: with the dry-run option set, `Run` leaves the manifest contents
byte-for-byte unchanged on every path (failed listing, nothing to do,
or the dry-run branch). -/
theorem claim_C6 (env : Env) (opts : Options) (h : opts.DryRun = true) :
    (runModel env opts).goMod = env.goMod0 := by
  unfold runModel
  cases env.listAll with
  | none => rfl
  | some mods => exact runCore_dryRun env opts _ _ h

/-- C7: a failed staleness check does not abort the run: it is treated
exactly as an empty annotated set — the run continues into the apply
side with the stale list an empty annotated read would produce. -/
theorem claim_C7 (env : Env) (opts : Options) (mods : List ModuleInfo)
    (h : env.selfRaw = none) (hl : env.listAll = some mods) :
    runModel env opts =
      runCore env opts
        (Deduplicate (collectReplaces env (mods.filter (fun m => ¬m.Main ∧ ¬m.Indirect))))
        (findStaleReplaces (withSourceFilter [])
          (Deduplicate (collectReplaces env (mods.filter (fun m => ¬m.Main ∧ ¬m.Indirect))))) := by
  unfold runModel
  rw [hl]
  show runCore env opts
      (Deduplicate (collectReplaces env (mods.filter (fun m => ¬m.Main ∧ ¬m.Indirect))))
      (staleOf env
        (Deduplicate (collectReplaces env (mods.filter (fun m => ¬m.Main ∧ ¬m.Indirect))))) = _
  rw [staleOf, h]
  rfl

/-- A one-dependency environment whose own-manifest read fails. -/
def env0 : Env where
  goMod0 := "module t\n".data
  listAll := some [⟨"example.com/dep", "v0.0.1", "depdir", false, false⟩]
  readDep := fun _ => some [⟨"a", "b", "", "v1.0.0", ""⟩]
  selfRaw := none
  editReplace := fun _ c => some c
  editDrop := fun _ c => some c
  tidyOp := fun c => some c

/-- Options for a real (non-dry) run with tidy skipped. -/
def optsApply : Options := ⟨false, false, true⟩

/-- Options for a dry run. -/
def optsDry : Options := ⟨true, false, false⟩

theorem claim_C6_witness :
    optsDry.DryRun = true ∧ (runModel env0 optsDry).goMod = env0.goMod0 :=
  ⟨rfl, claim_C6 env0 optsDry rfl⟩

theorem claim_C7_witness :
    env0.selfRaw = none ∧
    env0.listAll = some [⟨"example.com/dep", "v0.0.1", "depdir", false, false⟩] ∧
    runModel env0 optsApply =
      runCore env0 optsApply
        (Deduplicate (collectReplaces env0
          (([⟨"example.com/dep", "v0.0.1", "depdir", false, false⟩] : List ModuleInfo).filter
            (fun m => ¬m.Main ∧ ¬m.Indirect))))
        (findStaleReplaces (withSourceFilter [])
          (Deduplicate (collectReplaces env0
            (([⟨"example.com/dep", "v0.0.1", "depdir", false, false⟩] : List ModuleInfo).filter
              (fun m => ¬m.Main ∧ ¬m.Indirect))))) ∧
    (runModel env0 optsApply).ok = true :=
  ⟨rfl, rfl,
   claim_C7 env0 optsApply [⟨"example.com/dep", "v0.0.1", "depdir", false, false⟩] rfl rfl,
   by decide⟩

end DeepMod
